import Mathlib

/-!
Shallow embedding of the two scripts of this repository
(`parse_filter_validate_m3u.py` and `validador_canales.py`) and proofs of the
specification claims about them.

Python string/URL library behaviour used by the scripts (`str.strip`,
`str.lower`, `re` patterns actually occurring in the source, `urllib.parse`)
is modelled explicitly over `List Char`, restricted to ASCII whitespace and
ASCII case, which is all the claims exercise.
-/

namespace M3u

/-! ## Python string primitives -/

/-- ASCII whitespace as stripped by Python `str.strip()` (space, tab, LF, CR,
vertical tab, form feed; non-ASCII whitespace is not modelled). -/
def pyWs (c : Char) : Bool :=
  c = ' ' || c = '\t' || c = '\n' || c = '\r' || c.toNat = 11 || c.toNat = 12

/-- `str.strip()` on a character list: drop leading and trailing whitespace. -/
def pyStripList (l : List Char) : List Char :=
  ((l.dropWhile pyWs).reverse.dropWhile pyWs).reverse

/-- `str.strip()`. -/
def pyStrip (s : String) : String := String.mk (pyStripList s.data)

/-- `str.lower()` (ASCII case). -/
def pyLower (s : String) : String := String.mk (s.data.map Char.toLower)

/-- `str.startswith(pre)`. -/
def pyStartsWith (s pre : String) : Bool := List.isPrefixOf pre.data s.data

/-- Substring containment on character lists: `pat` occurs contiguously. -/
def containsSubAux (pat : List Char) : List Char → Bool
  | [] => pat.isEmpty
  | h :: t => List.isPrefixOf pat (h :: t) || containsSubAux pat t

/-- Python `needle in hay` for strings (substring containment). -/
def containsSub (hay pat : String) : Bool := containsSubAux pat.data hay.data

/-- `re.sub(r"\s+", " ", ·)` on a character list, one pass with a
"previous character was whitespace" flag: the first character of a
whitespace run becomes a single space, the rest of the run is dropped. -/
def collapseWsAux (prevWs : Bool) : List Char → List Char
  | [] => []
  | c :: rest =>
    if pyWs c then
      if prevWs then collapseWsAux true rest else ' ' :: collapseWsAux true rest
    else c :: collapseWsAux false rest

/-- `re.sub(r"\s+", " ", ·)`: collapse every whitespace run to a single
space. -/
def collapseWs (l : List Char) : List Char := collapseWsAux false l

/-! ## `urllib.parse` fragments used by the source

Only the pieces `urlparse(...).netloc` and `urlparse(...).path` that the
source reads are modelled, following CPython `urlsplit`: optional
`scheme:` prefix (an ASCII letter followed by letters/digits/`+-.` up to the
first `:`), then a network location delimited by `//` ... `/?#`, then
fragment (`#`), query (`?`) and parameter (`;`) splitting for the path. -/

/-- Characters allowed in a URL scheme after the leading letter. -/
def schemeChar (c : Char) : Bool :=
  c.isAlpha || c.isDigit || c = '+' || c = '-' || c = '.'

/-- Scan for the `:` ending a scheme; `none` when a non-scheme character
appears first (so the string has no scheme). -/
def schemeTail : List Char → Option (List Char)
  | [] => none
  | c :: rest => if c = ':' then some rest else if schemeChar c then schemeTail rest else none

/-- Drop a leading `scheme:` when present (CPython requires the first
character to be an ASCII letter). -/
def dropScheme (l : List Char) : List Char :=
  match l with
  | [] => []
  | c :: rest =>
    if c.isAlpha then
      match schemeTail rest with
      | some r => r
      | none => l
    else l

/-- Delimiters ending the network-location component. -/
def netlocEnd (c : Char) : Bool := c = '/' || c = '?' || c = '#'

/-- `urlparse(url).netloc`; `none` models the `ValueError` CPython raises on
a bracket-mismatched (invalid IPv6) network location. -/
def pyNetloc (url : String) : Option String :=
  let u := dropScheme url.data
  if u.take 2 = ['/', '/'] then
    let n := (u.drop 2).takeWhile (fun c => !netlocEnd c)
    if (n.contains '[' && !n.contains ']') || (n.contains ']' && !n.contains '[') then none
    else some (String.mk n)
  else some ("")

/-- Split `;parameters` off the path: CPython `_splitparams` cuts at the
first `;` of the last `/`-segment (or of the whole string when there is no
`/`). -/
def splitParams (l : List Char) : List Char :=
  if l.contains '/' then
    let lastSeg := (l.reverse.takeWhile (fun c => c ≠ '/')).reverse
    let pre := l.take (l.length - lastSeg.length)
    pre ++ lastSeg.takeWhile (fun c => c ≠ ';')
  else l.takeWhile (fun c => c ≠ ';')

/-- `urlparse(url).path` (total model; the bracket-mismatch error path of
`pyNetloc` is not replayed here). -/
def pyUrlPath (url : String) : String :=
  let u := dropScheme url.data
  let u := if u.take 2 = ['/', '/'] then (u.drop 2).dropWhile (fun c => !netlocEnd c) else u
  let u := u.takeWhile (fun c => c ≠ '#')
  let u := u.takeWhile (fun c => c ≠ '?')
  String.mk (splitParams u)

/-- `os.path.basename` for `/`-separated paths: everything after the last
`/`. -/
def pyBasename (s : String) : String :=
  String.mk ((s.data.reverse.takeWhile (fun c => c ≠ '/')).reverse)

/-- First component of `os.path.splitext`: cut at the last `.` unless every
character before it is a `.` (leading dots never start an extension). -/
def splitextFst (s : String) : String :=
  let d := s.data
  match d.reverse.findIdx? (fun c => c = '.') with
  | none => s
  | some r =>
    let i := d.length - 1 - r
    if (d.take i).any (fun c => c ≠ '.') then String.mk (d.take i) else s

/-! ## Entry model (`parse_m3u` produces dicts; optional keys become
`Option` fields) -/

structure Entry where
  name : Option String := none
  url : String := ""
  tvg_id : Option String := none
  tvg_name : Option String := none
  tvg_logo : Option String := none
  group_title : Option String := none
  category : Option String := none
  country : Option String := none
  language : Option String := none
  tvg_country : Option String := none
  tvg_language : Option String := none
  quality : Option String := none
  reject_reason : Option String := none
  http_status : Option Nat := none
deriving DecidableEq, Repr

/-! ## `extract_metadata` -/

/-- Case-insensitively drop `pat` when it is a prefix of the list, returning
the remainder. -/
def dropPrefCI : List Char → List Char → Option (List Char)
  | [], rest => some rest
  | _ :: _, [] => none
  | p :: ps, h :: hs => if p.toLower = h.toLower then dropPrefCI ps hs else none

/-- Remainder after the first case-insensitive occurrence of `pat`. -/
def findAfterCI (pat : List Char) : List Char → Option (List Char)
  | [] => dropPrefCI pat []
  | h :: hs =>
    match dropPrefCI pat (h :: hs) with
    | some r => some r
    | none => findAfterCI pat hs

/-- `re.search(key + "=\"([^\"]*)\"", line, re.IGNORECASE)`: the value is the
text between the first case-insensitive `key="` and the next `"` (the regex
needs that closing quote to match at all); the source then `.strip()`s it. -/
def attrValue (key : String) (line : String) : Option String :=
  match findAfterCI (key.data ++ ['=', '"']) line.data with
  | none => none
  | some rest =>
    if rest.contains '"' then some (pyStrip (String.mk (rest.takeWhile (fun c => c ≠ '"'))))
    else none

/-- Scan for the first comma with at least one following character; this is
where `re.search(r",\s*(.+)$", line)` matches.  The captured group after
`.strip()` equals the whole suffix stripped. -/
def goComma : List Char → Option (List Char)
  | [] => none
  | c :: rest => if c = ',' then (if rest = [] then none else some rest) else goComma rest

/-- `meta["name"]` as set by `re.search(r",\s*(.+)$", line)` + `.strip()`. -/
def nameAfterComma (s : String) : Option String :=
  (goComma s.data).map (fun post => pyStrip (String.mk post))

/-- `\w` (ASCII approximation): letters, digits, underscore. -/
def wordChar (c : Char) : Bool := c.isAlphanum || c = '_'

/-- Case-insensitive whole-word occurrence test, i.e.
`re.search(rf"\b{tag}\b", line, re.IGNORECASE)` for an alphanumeric `tag`.
`prev` is the character immediately before the current position. -/
def findWordCI (tag : List Char) : Option Char → List Char → Bool
  | _, [] => false
  | prev, h :: hs =>
    ((match prev with
      | none => true
      | some p => !wordChar p) &&
     (match dropPrefCI tag (h :: hs) with
      | none => false
      | some r =>
        match r with
        | [] => true
        | c :: _ => !wordChar c)) || findWordCI tag (some h) hs

/-- The fixed quality-tag vocabulary of `extract_metadata` (already upper
case, so `tag.upper()` is the tag itself). -/
def qualityTags : List String :=
  [("UHD"), ("4K"), ("1080"), ("720"), ("HD"), ("FHD"), ("SD"), ("HEVC"), ("H265")]

/-- Lexicographic (code-point) comparison matching Python `str` ordering. -/
def charListLe : List Char → List Char → Bool
  | [], _ => true
  | _ :: _, [] => false
  | a :: as, b :: bs =>
    if a.toNat < b.toNat then true
    else if b.toNat < a.toNat then false
    else charListLe as bs

def insertStr (s : String) : List String → List String
  | [] => [s]
  | t :: ts => if charListLe s.data t.data then s :: t :: ts else t :: insertStr s ts

/-- Python `sorted` (ascending); the tags are pairwise distinct so `set`
deduplication is a no-op. -/
def sortStr (l : List String) : List String := l.foldr insertStr []

/-- `"/".join(sorted(set(q)))` over the matched quality tags, or key absent. -/
def qualityOf (line : String) : Option String :=
  let q := qualityTags.filter (fun t => findWordCI t.data none line.data)
  if q = [] then none else some (String.intercalate ("/") (sortStr q))

/-- `extract_metadata(extinf_line)`: quoted attributes, title after the first
comma, quality tags, country/language alias harmonization, `category`
mirroring `group-title`.  The `url` field is filled in later by the parser. -/
def extract_metadata (line : String) : Entry :=
  let tvg_id := attrValue ("tvg-id") line
  let tvg_name := attrValue ("tvg-name") line
  let tvg_logo := attrValue ("tvg-logo") line
  let group_title := attrValue ("group-title") line
  let country0 := attrValue ("country") line
  let language0 := attrValue ("language") line
  let tvg_country := attrValue ("tvg-country") line
  let tvg_language := attrValue ("tvg-language") line
  let name := nameAfterComma line
  let quality := qualityOf line
  let country := match country0 with | some v => some v | none => tvg_country
  let language := match language0 with | some v => some v | none => tvg_language
  { name := name, url := "", tvg_id := tvg_id, tvg_name := tvg_name, tvg_logo := tvg_logo,
    group_title := group_title, category := group_title, country := country,
    language := language, tvg_country := tvg_country, tvg_language := tvg_language,
    quality := quality, reject_reason := none, http_status := none }

/-- `derive_name_from_meta(extinf_line, url)`: comma-suffix rule again, else
the extension-stripped basename of the URL path, else `"Unknown"`. -/
def derive_name_from_meta (line url : String) : String :=
  match nameAfterComma line with
  | some n => n
  | none =>
    let base := pyBasename (pyUrlPath url)
    let base2 := if base = ("") then base else splitextFst base
    if base2 = ("") then ("Unknown") else base2

/-! ## `parse_m3u` -/

/-- A line the URL scan of `parse_m3u` skips: blank after stripping, or
comment-prefixed (`#`). -/
def skippableLine (l : String) : Bool :=
  pyStrip l = ("") || pyStartsWith (pyStrip l) ("#")

/-- The inner `while` of `parse_m3u`: first stripped non-empty non-`#` line
(else `""`), together with the lines after it (where the outer loop
resumes). -/
def findUrl (ls : List String) : String × List String :=
  let rest := ls.dropWhile skippableLine
  (pyStrip (rest.headD ("")), rest.tail)

/-- One parsed entry: metadata extraction, URL, name fallback. -/
def mkEntry (meta url : String) : Entry :=
  let m := extract_metadata meta
  let m2 := { m with url := url }
  match m2.name with
  | some n => if n = ("") then { m2 with name := some (derive_name_from_meta meta url) } else m2
  | none => { m2 with name := some (derive_name_from_meta meta url) }

/-- The two nested `while` loops of `parse_m3u` as one structural pass:
`pending = some meta` means a metadata line was seen and the scan is
looking for its URL line (skipping blank and `#`-prefixed lines — note a
further `#EXTINF` line is itself skipped this way); when the URL is found
the outer loop resumes on the lines after it (`i = j`); at end of input a
pending metadata line still yields an entry with an empty URL. -/
def parseAux (pending : Option String) : List String → List Entry
  | [] =>
    match pending with
    | some meta => [mkEntry meta ("")]
    | none => []
  | l :: rest =>
    match pending with
    | some meta =>
      if skippableLine l then parseAux (some meta) rest
      else mkEntry meta (pyStrip l) :: parseAux none rest
    | none =>
      if pyStartsWith (pyStrip l) ("#EXTINF") then parseAux (some (pyStrip l)) rest
      else parseAux none rest

/-- `parse_m3u` over the file's lines (terminators already removed; the
source `rstrip`s `\n` when reading and `strip`s each line before use). -/
def parse_m3u (lines : List String) : List Entry := parseAux none lines

/-! ## `passes_filters` -/

/-- `(x or "").strip().lower()` — the `norm` helper of `passes_filters`. -/
def pyNorm (x : Option String) : String := pyLower (pyStrip (x.getD ("")))

/-- Python `a or b` over two optional strings (an empty string is falsy). -/
def pyOrOpt : Option String → Option String → Option String
  | some s, b => if s = ("") then b else some s
  | none, b => b

/-- Language-axis acceptance: normalized `language` (falling back to
`tvg_name`) equals some lower-cased criterion, or the normalized display
name contains `(<criterion>)`. -/
def acceptLang (entry : Entry) (langs : List String) : Bool :=
  let lang := pyNorm (pyOrOpt entry.language entry.tvg_name)
  let name := pyNorm entry.name
  (langs.map pyLower).contains lang ||
    langs.any (fun l => containsSub name (("(") ++ pyLower l ++ (")")))

/-- Country-axis acceptance: normalized `country` equals some lower-cased
criterion, or the normalized display name contains `[<criterion>]`. -/
def acceptCountry (entry : Entry) (countries : List String) : Bool :=
  let country := pyNorm entry.country
  let name := pyNorm entry.name
  (countries.map pyLower).contains country ||
    countries.any (fun c => containsSub name (("[") ++ pyLower c ++ ("]")))

/-- Category-axis acceptance: exact normalized match only (no display-name
heuristic in the source). -/
def acceptCategory (entry : Entry) (categories : List String) : Bool :=
  (categories.map pyLower).contains (pyNorm entry.category)

/-- `passes_filters(entry, langs, countries, categories)`. -/
def passes_filters (entry : Entry) (langs countries categories : List String) : Bool × String :=
  if (!langs.isEmpty) && (!acceptLang entry langs) then (false, ("lang_filter"))
  else if (!countries.isEmpty) && (!acceptCountry entry countries) then (false, ("country_filter"))
  else if (!categories.isEmpty) && (!acceptCategory entry categories) then (false, ("category_filter"))
  else (true, ("ok"))

/-! ## `canonical_key` -/

/-- Name normalization of `canonical_key`: strip, lower-case, collapse
whitespace runs to single spaces. -/
def normName (x : Option String) : String :=
  String.mk (collapseWs (pyLower (pyStrip (x.getD ("")))).data)

/-- `urlparse(url).netloc.lower()` inside `try`, `""` on error. -/
def hostOf (url : String) : String :=
  match pyNetloc url with
  | some n => pyLower n
  | none => ("")

/-- `.strip().lower()` of an optional field. -/
def normField (x : Option String) : String := pyLower (pyStrip (x.getD ("")))

/-- `canonical_key(entry)`: the five normalized fields joined with `"|"`. -/
def canonical_key (e : Entry) : String :=
  String.intercalate ("|")
    [normName e.name, hostOf e.url, normField e.category, normField e.language, normField e.country]

/-! ## `validate_stream`

The network is abstracted as a `ProbeOutcome`: the request either times
out, raises some other exception (with the exception type's name), or
returns a response with a status code and a stream of chunk sizes. -/

inductive ProbeOutcome where
  | timeout : ProbeOutcome
  | exc : String → ProbeOutcome
  | response : Nat → List Nat → ProbeOutcome
deriving DecidableEq, Repr

def START_CHUNK_BYTES : Nat := 2048

/-- The chunk-reading loop of `validate_stream`: add chunk lengths, stop on
an empty chunk or once `thresh` bytes have been accumulated. -/
def readChunks (thresh total : Nat) : List Nat → Nat
  | [] => total
  | c :: rest =>
    if c = 0 then total
    else
      let t := total + c
      if thresh ≤ t then t else readChunks thresh t rest

/-- `validate_stream(url)` given the probe's outcome; `thresh` is the
module constant `START_CHUNK_BYTES` (the spec's minimum-bytes threshold);
the timeout budget is implicit in the `timeout` outcome. -/
def validate_stream (thresh : Nat) (oc : ProbeOutcome) : Bool × String × Nat :=
  match oc with
  | ProbeOutcome.timeout => (false, ("timeout"), 0)
  | ProbeOutcome.exc k => (false, ("exception:") ++ k, 0)
  | ProbeOutcome.response status chunks =>
    if 400 ≤ status then (false, ("http_") ++ toString status, status)
    else
      let total := readChunks thresh 0 chunks
      if 0 < total then (true, ("ok"), status)
      else (false, ("no_data"), status)

/-! ## Pipeline stages of `main` (filter, validate, dedupe, export)

Each per-item loop checks the cooperative cancellation flag before every
item; the flag is modelled as a function of a global item counter.  The
pure stage functions describe one full (uncancelled) pass. -/

/-- One classification pass: `cl` returns the keep flag and the annotated
copy used when the entry is rejected; kept entries are passed through
unchanged, rejected ones collect in the second list (both in input
order). -/
def classifyStage (cl : Entry → Bool × Entry) : List Entry → List Entry × List Entry
  | [] => ([], [])
  | e :: rest =>
    let r := cl e
    let p := classifyStage cl rest
    if r.1 then (e :: p.1, p.2) else (p.1, r.2 :: p.2)

/-- The classifier of the FILTER stage: `e2 = e.copy();
e2["reject_reason"] = reason`. -/
def filterClassifier (langs countries cats : List String) (e : Entry) : Bool × Entry :=
  let r := passes_filters e langs countries cats
  (r.1, { e with reject_reason := some r.2 })

/-- The classifier of the VALIDATE stage: annotated copy also records the
observed `http_status`. -/
def validateClassifier (probe : String → ProbeOutcome) (e : Entry) : Bool × Entry :=
  let r := validate_stream START_CHUNK_BYTES (probe e.url)
  (r.1, { e with reject_reason := some r.2.1, http_status := some r.2.2 })

/-- The FILTER stage over a whole batch (kept, filtered_out). -/
def filterStage (langs countries cats : List String) (es : List Entry) : List Entry × List Entry :=
  classifyStage (filterClassifier langs countries cats) es

/-- The VALIDATE stage over a whole batch (valid, invalid). -/
def validateStage (probe : String → ProbeOutcome) (es : List Entry) : List Entry × List Entry :=
  classifyStage (validateClassifier probe) es

/-- A per-item loop of `main`: before each item the cancellation flag is
polled at the current step counter; when set, the loop breaks, leaving the
remaining items untouched.  Returns the two accumulated lists and the step
counter after the loop. -/
def classifyLoop (cancel : Nat → Bool) (cl : Entry → Bool × Entry) :
    Nat → List Entry → List Entry × List Entry × Nat
  | s, [] => ([], [], s)
  | s, e :: rest =>
    if cancel s then ([], [], s)
    else
      let r := cl e
      let p := classifyLoop cancel cl (s + 1) rest
      if r.1 then (e :: p.1, p.2.1, p.2.2) else (p.1, r.2 :: p.2.1, p.2.2)

/-! ## Deduplication -/

/-- The dedup loop of `main`: `seen` is the set of canonical keys already
emitted (Python `set` membership modelled as list membership). -/
def dedupeAux : List Entry → List String → List Entry
  | [], _ => []
  | e :: rest, seen =>
    let k := canonical_key e
    if k ∈ seen then dedupeAux rest seen
    else e :: dedupeAux rest (k :: seen)

/-- `main`'s deduplication: first-seen entry per canonical key, input
order. -/
def dedupe (es : List Entry) : List Entry := dedupeAux es []

/-- Specification-side description of deduplication (from the claim's
words): keep each entry, dropping every later entry of its canonical-key
equivalence class. -/
def firstSeenSpec : List Entry → List Entry
  | [] => []
  | e :: rest =>
    e :: firstSeenSpec (rest.filter (fun x => canonical_key x != canonical_key e))
termination_by l => l.length
decreasing_by
  simp only [List.length_cons]
  exact Nat.lt_succ_of_le (List.length_filter_le _ _)

/-- FILTER → VALIDATE → DEDUPE → EXPORT portion of `main` under a
cancellation schedule: the exported pair is (deduplicated valid entries,
filter rejects ++ validation rejects). -/
def pipeline (cancel : Nat → Bool) (probe : String → ProbeOutcome)
    (langs countries cats : List String) (entries : List Entry) :
    List Entry × List Entry :=
  let f := classifyLoop cancel (filterClassifier langs countries cats) 0 entries
  let v := classifyLoop cancel (validateClassifier probe) f.2.2 f.1
  (dedupe v.1, f.2.1 ++ v.2.1)

/-! ## `validador_canales.py`

`requests.get` is abstracted as `get : String → Option Nat`: `none` models
a raised exception, `some s` a response with final status code `s`. -/

/-- `validar_url(url)`: `response.status_code == 200`, `False` on any
exception. -/
def validar_url (get : String → Option Nat) (url : String) : Bool :=
  match get url with
  | some s => s == 200
  | none => false

/-- The per-file `while` loop: every stripped line starting with
`"#EXTINF:"` that still has a next line yields one validation attempt whose
URL is exactly that next line (stripped); the loop then resumes AT the URL
line (so that line is re-examined, and a following `#EXTINF:` line is
itself processed).  A final `#EXTINF:` line yields nothing.  Each element
is (info line, url, validation result). -/
def procesarLog (get : String → Option Nat) : List String → List (String × String × Bool)
  | [] => []
  | l :: rest =>
    if pyStartsWith (pyStrip l) ("#EXTINF:") then
      match rest with
      | [] => []
      | u :: _ => (pyStrip l, pyStrip u, validar_url get (pyStrip u)) :: procesarLog get rest
    else procesarLog get rest

/-- Channels written to `lista_combo.m3u`: the attempts whose URL
validated. -/
def lista_combo (get : String → Option Nat) (lines : List String) : List (String × String) :=
  (procesarLog get lines).filterMap (fun r => if r.2.2 then some (r.1, r.2.1) else none)

/-! ## Specification-side definitions (used only to compare a claim's
wording with the source behaviour) -/

/-- Modelled from the claim's words (C5): canonical key whose name segment
only has whitespace runs collapsed and is lower-cased, and whose
category/language/country segments are only lower-cased — without the
`.strip()` the source applies. -/
def claimKeySpec (e : Entry) : String :=
  String.intercalate ("|")
    [String.mk (collapseWs (pyLower (e.name.getD (""))).data), hostOf e.url,
     pyLower (e.category.getD ("")), pyLower (e.language.getD ("")), pyLower (e.country.getD (""))]

/-- Modelled from the claim's words (C3): the title is everything after the
last comma of the line (for a line with no quoted attribute values every
comma is top-level, so this is the claim's "last top-level comma"). -/
def afterLastComma (s : String) : Option String :=
  if s.data.contains ',' then
    some (pyStrip (String.mk ((s.data.reverse.takeWhile (fun c => c ≠ ',')).reverse)))
  else none

/-! # Theorems -/

/-- The chunk-reading loop never loses bytes already counted. -/
theorem le_readChunks (thresh : Nat) :
    ∀ (chunks : List Nat) (total : Nat), total ≤ readChunks thresh total chunks := by
  intro chunks
  induction chunks with
  | nil => intro total; simp [readChunks]
  | cons c rest ih =>
    intro total
    unfold readChunks
    by_cases hc : c = 0
    · simp [hc]
    · simp only [hc, if_false]
      by_cases ht : thresh ≤ total + c
      · rw [if_pos ht]; omega
      · rw [if_neg ht]
        exact le_trans (by omega) (ih (total + c))

/-- Claim C1: `validate_stream` classifies a probe as follows — status
≥ 400 is invalid with reason `http_<status>` carrying the status; a timeout
is invalid with reason `timeout` and status 0; any other failure is invalid
with reason `exception:<kind>` and status 0; otherwise the body is read
until the threshold is reached or the stream ends, giving valid/`ok` with
the observed status when at least one byte was read and invalid/`no_data`
when zero bytes were read (and, for streams of non-empty chunks, zero bytes
are read exactly when the stream yields no chunk at all). -/
theorem validate_stream_classification (thresh : Nat) (oc : ProbeOutcome) :
    (oc = ProbeOutcome.timeout → validate_stream thresh oc = (false, ("timeout"), 0)) ∧
    (∀ k, oc = ProbeOutcome.exc k →
      validate_stream thresh oc = (false, ("exception:") ++ k, 0)) ∧
    (∀ s chunks, oc = ProbeOutcome.response s chunks → 400 ≤ s →
      validate_stream thresh oc = (false, ("http_") ++ toString s, s)) ∧
    (∀ s chunks, oc = ProbeOutcome.response s chunks → s < 400 →
      0 < readChunks thresh 0 chunks → validate_stream thresh oc = (true, ("ok"), s)) ∧
    (∀ s chunks, oc = ProbeOutcome.response s chunks → s < 400 →
      readChunks thresh 0 chunks = 0 → validate_stream thresh oc = (false, ("no_data"), s)) ∧
    (∀ s chunks, oc = ProbeOutcome.response s chunks → (∀ c ∈ chunks, 0 < c) →
      (readChunks thresh 0 chunks = 0 ↔ chunks = [])) := by
  refine ⟨?_, ?_, ?_, ?_, ?_, ?_⟩
  · intro h; subst h; rfl
  · intro k h; subst h; rfl
  · intro s chunks h hs; subst h; simp [validate_stream, hs]
  · intro s chunks h hs hr
    subst h
    have hns : ¬ 400 ≤ s := by omega
    simp [validate_stream, hns, hr]
  · intro s chunks h hs hr
    subst h
    have hns : ¬ 400 ≤ s := by omega
    simp [validate_stream, hns, hr]
  · intro s chunks h hpos
    subst h
    constructor
    · intro h0
      cases chunks with
      | nil => rfl
      | cons c rest =>
        exfalso
        have hc : 0 < c := hpos c (by simp)
        have hc0 : ¬ c = 0 := by omega
        unfold readChunks at h0
        simp only [hc0, if_false] at h0
        by_cases ht : thresh ≤ 0 + c
        · rw [if_pos ht] at h0; omega
        · rw [if_neg ht] at h0
          have := le_readChunks thresh rest (0 + c)
          omega
    · intro h; subst h; rfl

/-- Instance of claim C1 at concrete probes. -/
theorem validate_stream_classification_instance :
    validate_stream 2048 (ProbeOutcome.response 404 [100]) = (false, ("http_404"), 404) ∧
    validate_stream 2048 (ProbeOutcome.response 200 []) = (false, ("no_data"), 200) ∧
    validate_stream 2048 (ProbeOutcome.response 200 [1024, 1024, 7]) = (true, ("ok"), 200) ∧
    validate_stream 2048 ProbeOutcome.timeout = (false, ("timeout"), 0) := by
  refine ⟨?_, ?_, ?_, ?_⟩
  · exact ((validate_stream_classification 2048 _).2.2.1 404 [100] rfl (by omega)).trans (by decide)
  · exact (validate_stream_classification 2048 _).2.2.2.2.1 200 [] rfl (by omega) (by decide)
  · exact (validate_stream_classification 2048 _).2.2.2.1 200 [1024, 1024, 7] rfl (by omega) (by decide)
  · exact (validate_stream_classification 2048 _).1 rfl

/-- Claim C5 (amended: the source also `.strip()`s the name before
collapsing/lower-casing and `.strip()`s category/language/country before
lower-casing): the canonical dedup key is the five normalized fields joined
with `"|"` in order (empty fields kept as empty segments); an unparseable
URL gives an empty host (never an error); and entries agreeing on the
normalized name (which identifies names differing only by whitespace runs
and case) and on host/category/language/country produce identical keys. -/
theorem canonical_key_structure :
    (∀ e : Entry, canonical_key e =
      normName e.name ++ ("|") ++ hostOf e.url ++ ("|") ++ normField e.category ++ ("|") ++
        normField e.language ++ ("|") ++ normField e.country) ∧
    (∀ url, pyNetloc url = none → hostOf url = ("")) ∧
    (∀ e1 e2 : Entry, normName e1.name = normName e2.name → hostOf e1.url = hostOf e2.url →
      normField e1.category = normField e2.category →
      normField e1.language = normField e2.language →
      normField e1.country = normField e2.country →
      canonical_key e1 = canonical_key e2) := by
  refine ⟨?_, ?_, ?_⟩
  · intro e; rfl
  · intro url h; simp [hostOf, h]
  · intro e1 e2 h1 h2 h3 h4 h5
    simp only [canonical_key, h1, h2, h3, h4, h5]

/-- Instance of claim C5: `"BBC  One"` vs `"bbc one"` with identical
host/category/language/country give identical keys. -/
theorem canonical_key_structure_instance :
    canonical_key
        { name := some ("BBC  One"), url := ("http://Host/x"), category := some ("News"),
          language := some ("fr"), country := some ("CA") } =
      canonical_key
        { name := some ("bbc one"), url := ("http://host/y"), category := some ("News"),
          language := some ("fr"), country := some ("CA") } :=
  canonical_key_structure.2.2 _ _ (by decide) (by decide) (by decide) (by decide) (by decide)

/-- Counterexample to claim C5 as stated: the key of an entry whose name has
trailing whitespace and whose category has leading whitespace differs from
the claim's collapse/lower-only description, because the source `.strip()`s
those fields first. -/
theorem canonical_key_unstripped_counterexample :
    canonical_key { name := some ("A  B "), category := some (" News") } = ("a b||news||") ∧
    claimKeySpec { name := some ("A  B "), category := some (" News") } = ("a b || news||") ∧
    canonical_key { name := some ("A  B "), category := some (" News") } ≠
      claimKeySpec { name := some ("A  B "), category := some (" News") } := by
  refine ⟨by decide, by decide, by decide⟩

/-- The language-axis acceptance test, in propositional form: case-blind
match of the normalized language value — which falls back to `tvg_name`
when `language` is absent or empty — or a `(code)` occurrence in the
normalized display name. -/
theorem acceptLang_iff (e : Entry) (langs : List String) :
    acceptLang e langs = true ↔
      pyNorm (pyOrOpt e.language e.tvg_name) ∈ langs.map pyLower ∨
        ∃ l ∈ langs, containsSub (pyNorm e.name) (("(") ++ pyLower l ++ (")")) = true := by
  simp [acceptLang, List.any_eq_true, List.contains, List.elem_iff]

/-- The country-axis acceptance test, in propositional form (no fallback
field): case-blind match of the normalized `country` field or a `[code]`
occurrence in the normalized display name. -/
theorem acceptCountry_iff (e : Entry) (countries : List String) :
    acceptCountry e countries = true ↔
      pyNorm e.country ∈ countries.map pyLower ∨
        ∃ c ∈ countries, containsSub (pyNorm e.name) (("[") ++ pyLower c ++ ("]")) = true := by
  simp [acceptCountry, List.any_eq_true, List.contains, List.elem_iff]

/-- Claim C4 (amended: the language value the source matches is
`entry.get("language") or entry.get("tvg_name")`, i.e. it falls back to the
`tvg_name` field when `language` is absent or empty; the claim's "language
field" alone is refuted below): with a non-empty language list, the filter
accepts on the language axis iff the normalized fallback value matches a
lower-cased criterion or the normalized display name contains the
parenthesized code, and otherwise rejects with reason `lang_filter`;
analogously for the country axis (no fallback) with brackets and
`country_filter`. -/
theorem filter_axis_characterization (e : Entry) (langs countries : List String)
    (hl : langs ≠ []) (hc : countries ≠ []) :
    (passes_filters e langs [] [] = (true, ("ok")) ↔
      pyNorm (pyOrOpt e.language e.tvg_name) ∈ langs.map pyLower ∨
        ∃ l ∈ langs, containsSub (pyNorm e.name) (("(") ++ pyLower l ++ (")")) = true) ∧
    (passes_filters e langs [] [] = (true, ("ok")) ∨
      passes_filters e langs [] [] = (false, ("lang_filter"))) ∧
    (passes_filters e [] countries [] = (true, ("ok")) ↔
      pyNorm e.country ∈ countries.map pyLower ∨
        ∃ c ∈ countries, containsSub (pyNorm e.name) (("[") ++ pyLower c ++ ("]")) = true) ∧
    (passes_filters e [] countries [] = (true, ("ok")) ∨
      passes_filters e [] countries [] = (false, ("country_filter"))) := by
  have hle : langs.isEmpty = false := by cases langs with | nil => exact absurd rfl hl | cons a t => rfl
  have hce : countries.isEmpty = false := by
    cases countries with | nil => exact absurd rfl hc | cons a t => rfl
  have key1 : ∀ b, acceptLang e langs = b →
      passes_filters e langs [] [] = (if b then (true, ("ok")) else (false, ("lang_filter"))) := by
    intro b hb
    cases b with
    | true => simp [passes_filters, hle, hb]
    | false => simp [passes_filters, hle, hb]
  have key2 : ∀ b, acceptCountry e countries = b →
      passes_filters e [] countries [] =
        (if b then (true, ("ok")) else (false, ("country_filter"))) := by
    intro b hb
    cases b with
    | true => simp [passes_filters, hce, hb]
    | false => simp [passes_filters, hce, hb]
  refine ⟨?_, ?_, ?_, ?_⟩
  · cases hx : acceptLang e langs with
    | true =>
      rw [key1 true hx]
      simp only [if_true, true_iff]
      exact (acceptLang_iff e langs).mp hx
    | false =>
      rw [key1 false hx]
      constructor
      · intro heq; exact absurd heq (by decide)
      · intro hcon
        rw [(acceptLang_iff e langs).mpr hcon] at hx
        exact absurd hx (by decide)
  · cases hx : acceptLang e langs with
    | true => left; rw [key1 true hx]; rfl
    | false => right; rw [key1 false hx]; rfl
  · cases hx : acceptCountry e countries with
    | true =>
      rw [key2 true hx]
      simp only [if_true, true_iff]
      exact (acceptCountry_iff e countries).mp hx
    | false =>
      rw [key2 false hx]
      constructor
      · intro heq; exact absurd heq (by decide)
      · intro hcon
        rw [(acceptCountry_iff e countries).mpr hcon] at hx
        exact absurd hx (by decide)
  · cases hx : acceptCountry e countries with
    | true => left; rw [key2 true hx]; rfl
    | false => right; rw [key2 false hx]; rfl

/-- Instance of claim C4: language `["fr"]` accepts `language="FR"` and
also a `"(fr)"` display name with no language field; an entry matching
neither way is rejected with `lang_filter`. -/
theorem filter_axis_characterization_instance :
    passes_filters { language := some ("FR") } [("fr")] [] [] = (true, ("ok")) ∧
    passes_filters { name := some ("Channel (fr)") } [("fr")] [] [] = (true, ("ok")) ∧
    passes_filters { name := some ("Nope") } [("fr")] [] [] = (false, ("lang_filter")) := by
  refine ⟨?_, ?_, ?_⟩
  · exact (filter_axis_characterization { language := some ("FR") } [("fr")] [("x")]
      (by decide) (by decide)).1.mpr (by decide)
  · exact (filter_axis_characterization { name := some ("Channel (fr)") } [("fr")] [("x")]
      (by decide) (by decide)).1.mpr (by decide)
  · have h := (filter_axis_characterization { name := some ("Nope") } [("fr")] [("x")]
      (by decide) (by decide)).2.1
    rcases h with h | h
    · exact absurd ((filter_axis_characterization { name := some ("Nope") } [("fr")] [("x")]
        (by decide) (by decide)).1.mp h) (by decide)
    · exact h

/-- Counterexample to claim C4 as stated: an entry with no populated
`language` field and no parenthesized code in its display name is accepted
by language filter `["fr"]` anyway, because the source falls back to the
`tvg_name` field. -/
theorem lang_filter_fallback_counterexample :
    passes_filters { tvg_name := some ("fr"), name := some ("Channel X") } [("fr")] [] [] =
      (true, ("ok")) ∧
    pyNorm (({ tvg_name := some ("fr"), name := some ("Channel X") } : Entry)).language ∉
      [("fr")].map pyLower ∧
    containsSub (pyNorm (({ tvg_name := some ("fr"), name := some ("Channel X") } : Entry)).name)
      (("(") ++ pyLower ("fr") ++ (")")) = false := by
  refine ⟨by decide, by decide, by decide⟩

/-- Claim C8: with a non-empty category list, and the language and country
axes passing, an entry whose normalized category matches no lower-cased
criterion is rejected with reason `category_filter` — for every entry, so
in particular regardless of any bracketed or parenthesized tokens in its
display name (no heuristic applies to the category axis). -/
theorem category_axis_exact_match (e : Entry) (langs countries cats : List String)
    (hcat : cats ≠ [])
    (h1 : langs = [] ∨ acceptLang e langs = true)
    (h2 : countries = [] ∨ acceptCountry e countries = true)
    (h3 : pyNorm e.category ∉ cats.map pyLower) :
    passes_filters e langs countries cats = (false, ("category_filter")) := by
  have hcatE : cats.isEmpty = false := by
    cases cats with | nil => exact absurd rfl hcat | cons a t => rfl
  have hl : (!langs.isEmpty && !acceptLang e langs) = false := by
    rcases h1 with h | h
    · simp [h]
    · simp [h]
  have hc : (!countries.isEmpty && !acceptCountry e countries) = false := by
    rcases h2 with h | h
    · simp [h]
    · simp [h]
  have hcc : acceptCategory e cats = false := by
    cases hx : acceptCategory e cats with
    | false => rfl
    | true =>
      exact absurd (by simpa [acceptCategory, List.contains, List.elem_iff] using hx) h3
  simp [passes_filters, hl, hc, hcatE, hcc]

/-- Instance of claim C8: category filter `["News"]` rejects an entry of
category `"Movies"` with reason `category_filter` even though its display
name contains both `[news]` and `(news)`. -/
theorem category_axis_exact_match_instance :
    passes_filters { name := some ("News [news] (news)"), category := some ("Movies") }
        [] [] [("News")] = (false, ("category_filter")) ∧
    containsSub (pyNorm (some ("News [news] (news)"))) ("[news]") = true ∧
    containsSub (pyNorm (some ("News [news] (news)"))) ("(news)") = true := by
  refine ⟨category_axis_exact_match _ [] [] [("News")] (by decide) (Or.inl rfl) (Or.inl rfl)
    (by decide), by decide, by decide⟩

/-- Every kept entry of a classification pass is one of the input entries,
unchanged. -/
theorem classifyStage_kept_mem (cl : Entry → Bool × Entry) :
    ∀ es : List Entry, ∀ e ∈ (classifyStage cl es).1, e ∈ es := by
  intro es
  induction es with
  | nil => intro e he; simp [classifyStage] at he
  | cons a rest ih =>
    intro e he
    simp only [classifyStage] at he
    by_cases h : (cl a).1 = true
    · rw [if_pos h] at he
      rcases List.mem_cons.mp he with h' | h'
      · exact h' ▸ List.mem_cons_self a rest
      · exact List.mem_cons_of_mem a (ih e h')
    · rw [if_neg h] at he
      exact List.mem_cons_of_mem a (ih e he)

/-- Every rejected entry of a classification pass is the classifier's
annotated copy of some input entry (one the classifier refused). -/
theorem classifyStage_rejected_mem (cl : Entry → Bool × Entry) :
    ∀ es : List Entry, ∀ e2 ∈ (classifyStage cl es).2,
      ∃ e ∈ es, (cl e).1 = false ∧ e2 = (cl e).2 := by
  intro es
  induction es with
  | nil => intro e2 he; simp [classifyStage] at he
  | cons a rest ih =>
    intro e2 he
    simp only [classifyStage] at he
    by_cases h : (cl a).1 = true
    · rw [if_pos h] at he
      obtain ⟨e, hmem, hcl, heq⟩ := ih e2 he
      exact ⟨e, List.mem_cons_of_mem a hmem, hcl, heq⟩
    · rw [if_neg h] at he
      rcases List.mem_cons.mp he with h' | h'
      · refine ⟨a, List.mem_cons_self a rest, ?_, h'⟩
        cases hx : (cl a).1 with
        | false => rfl
        | true => exact absurd hx h
      · obtain ⟨e, hmem, hcl, heq⟩ := ih e2 h'
        exact ⟨e, List.mem_cons_of_mem a hmem, hcl, heq⟩

/-- Claim C7: the Filter and Validator stages never mutate an entry — kept
entries are the original records (and thus carry no `reject_reason` when the
inputs carry none), rejections are fresh annotated copies of an input entry
with `reject_reason` set (plus `http_status` after validation), so
`reject_reason` is mutually exclusive with membership in a kept set. -/
theorem stage_annotation_immutability (langs countries cats : List String)
    (probe : String → ProbeOutcome) (es : List Entry)
    (h : ∀ e ∈ es, e.reject_reason = none) :
    (∀ e ∈ (filterStage langs countries cats es).1, e ∈ es ∧ e.reject_reason = none) ∧
    (∀ e2 ∈ (filterStage langs countries cats es).2,
      e2.reject_reason ≠ none ∧
        ∃ e ∈ es, ∃ r, e2 = { e with reject_reason := some r }) ∧
    (∀ e ∈ (validateStage probe (filterStage langs countries cats es).1).1,
      e ∈ es ∧ e.reject_reason = none) ∧
    (∀ e2 ∈ (validateStage probe (filterStage langs countries cats es).1).2,
      e2.reject_reason ≠ none ∧
        ∃ e ∈ es, e.reject_reason = none ∧
          ∃ r s, e2 = { e with reject_reason := some r, http_status := some s }) := by
  refine ⟨?_, ?_, ?_, ?_⟩
  · intro e he
    have hm := classifyStage_kept_mem _ es e he
    exact ⟨hm, h e hm⟩
  · intro e2 he
    obtain ⟨e, hmem, _, heq⟩ := classifyStage_rejected_mem _ es e2 he
    refine ⟨?_, e, hmem, (passes_filters e langs countries cats).2, heq⟩
    rw [heq]
    simp [filterClassifier]
  · intro e he
    have hm1 := classifyStage_kept_mem _ _ e he
    have hm := classifyStage_kept_mem _ es e hm1
    exact ⟨hm, h e hm⟩
  · intro e2 he
    obtain ⟨e, hmem1, _, heq⟩ := classifyStage_rejected_mem _ _ e2 he
    have hm := classifyStage_kept_mem _ es e hmem1
    refine ⟨?_, e, hm, h e hm,
      (validate_stream START_CHUNK_BYTES (probe e.url)).2.1,
      (validate_stream START_CHUNK_BYTES (probe e.url)).2.2, heq⟩
    rw [heq]
    simp [validateClassifier]

/-- Instance of claim C7: a two-entry batch, one entry failing the language
filter and one failing validation. -/
theorem stage_annotation_immutability_instance :
    (∀ e ∈ (filterStage [("fr")] [] []
        [{ name := some ("A"), url := ("http://a"), language := some ("fr") },
         { name := some ("B"), url := ("http://b"), language := some ("en") }]).1,
      e ∈ [({ name := some ("A"), url := ("http://a"), language := some ("fr") } : Entry),
           { name := some ("B"), url := ("http://b"), language := some ("en") }] ∧
        e.reject_reason = none) ∧
    (∀ e2 ∈ (filterStage [("fr")] [] []
        [{ name := some ("A"), url := ("http://a"), language := some ("fr") },
         { name := some ("B"), url := ("http://b"), language := some ("en") }]).2,
      e2.reject_reason ≠ none ∧
        ∃ e ∈ [({ name := some ("A"), url := ("http://a"), language := some ("fr") } : Entry),
               { name := some ("B"), url := ("http://b"), language := some ("en") }],
          ∃ r, e2 = { e with reject_reason := some r }) ∧
    (∀ e ∈ (validateStage (fun _ => ProbeOutcome.response 404 [])
        (filterStage [("fr")] [] []
          [{ name := some ("A"), url := ("http://a"), language := some ("fr") },
           { name := some ("B"), url := ("http://b"), language := some ("en") }]).1).1,
      e ∈ [({ name := some ("A"), url := ("http://a"), language := some ("fr") } : Entry),
           { name := some ("B"), url := ("http://b"), language := some ("en") }] ∧
        e.reject_reason = none) ∧
    (∀ e2 ∈ (validateStage (fun _ => ProbeOutcome.response 404 [])
        (filterStage [("fr")] [] []
          [{ name := some ("A"), url := ("http://a"), language := some ("fr") },
           { name := some ("B"), url := ("http://b"), language := some ("en") }]).1).2,
      e2.reject_reason ≠ none ∧
        ∃ e ∈ [({ name := some ("A"), url := ("http://a"), language := some ("fr") } : Entry),
               { name := some ("B"), url := ("http://b"), language := some ("en") }],
          e.reject_reason = none ∧
            ∃ r s, e2 = { e with reject_reason := some r, http_status := some s }) :=
  stage_annotation_immutability [("fr")] [] [] (fun _ => ProbeOutcome.response 404 [])
    [{ name := some ("A"), url := ("http://a"), language := some ("fr") },
     { name := some ("B"), url := ("http://b"), language := some ("en") }]
    (by decide)

/-- A key already recorded as seen never reappears in the dedup loop's
output. -/
theorem dedupeAux_ne_of_mem :
    ∀ (es : List Entry) (seen : List String) (k : String), k ∈ seen →
      ∀ e ∈ dedupeAux es seen, canonical_key e ≠ k := by
  intro es
  induction es with
  | nil => intro seen k hk e he; simp [dedupeAux] at he
  | cons a rest ih =>
    intro seen k hk e he
    simp only [dedupeAux] at he
    by_cases h : canonical_key a ∈ seen
    · rw [if_pos h] at he
      exact ih seen k hk e he
    · rw [if_neg h] at he
      rcases List.mem_cons.mp he with h' | h'
      · intro hek
        exact h (by rw [← h', hek]; exact hk)
      · exact ih (canonical_key a :: seen) k (List.mem_cons_of_mem _ hk) e h'

/-- The dedup loop only depends on the seen set through membership. -/
theorem dedupeAux_congr :
    ∀ (es : List Entry) (s1 s2 : List String), (∀ x, x ∈ s1 ↔ x ∈ s2) →
      dedupeAux es s1 = dedupeAux es s2 := by
  intro es
  induction es with
  | nil => intro s1 s2 h; rfl
  | cons a rest ih =>
    intro s1 s2 h
    simp only [dedupeAux]
    by_cases h1 : canonical_key a ∈ s1
    · rw [if_pos h1, if_pos ((h _).mp h1)]
      exact ih s1 s2 h
    · rw [if_neg h1, if_neg (fun hx => h1 ((h _).mpr hx))]
      have := ih (canonical_key a :: s1) (canonical_key a :: s2)
        (fun x => by simp only [List.mem_cons]; rw [h x])
      rw [this]

/-- Seeding the seen set with `k` is the same as filtering key `k` out of
the loop's output. -/
theorem dedupeAux_cons_seen :
    ∀ (es : List Entry) (seen : List String) (k : String),
      dedupeAux es (k :: seen) =
        (dedupeAux es seen).filter (fun e => canonical_key e != k) := by
  intro es
  induction es with
  | nil => intro seen k; rfl
  | cons a rest ih =>
    intro seen k
    by_cases hks : canonical_key a ∈ seen
    · have hks2 : canonical_key a ∈ k :: seen := List.mem_cons_of_mem _ hks
      simp only [dedupeAux, if_pos hks, if_pos hks2]
      exact ih seen k
    · by_cases hk : canonical_key a = k
      · have hks2 : canonical_key a ∈ k :: seen := by
          rw [hk]; exact List.mem_cons_self k seen
        simp only [dedupeAux, if_pos hks2, if_neg hks]
        rw [List.filter_cons, if_neg (by rw [hk]; simp)]
        rw [hk]
        symm
        apply List.filter_eq_self.mpr
        intro e he
        have hne := dedupeAux_ne_of_mem rest (k :: seen) k (List.mem_cons_self _ _) e he
        simpa using hne
      · have hks2 : canonical_key a ∉ k :: seen := by
          simp only [List.mem_cons]
          rintro (h | h)
          · exact hk h
          · exact hks h
        simp only [dedupeAux, if_neg hks2, if_neg hks]
        rw [List.filter_cons, if_pos (by simp [hk])]
        refine congrArg (List.cons a) ?_
        rw [dedupeAux_congr rest (canonical_key a :: k :: seen) (k :: canonical_key a :: seen)
          (fun x => by simp only [List.mem_cons]; exact or_left_comm)]
        exact ih (canonical_key a :: seen) k

/-- Filtering a key class out commutes with the first-seen description. -/
theorem filter_firstSeenSpec (k : String) :
    ∀ (n : Nat) (es : List Entry), es.length ≤ n →
      (firstSeenSpec es).filter (fun e => canonical_key e != k) =
        firstSeenSpec (es.filter (fun e => canonical_key e != k)) := by
  intro n
  induction n with
  | zero =>
    intro es hlen
    have h0 : es = [] := List.eq_nil_of_length_eq_zero (Nat.le_zero.mp hlen)
    subst h0
    simp [firstSeenSpec]
  | succ m ih =>
    intro es hlen
    cases es with
    | nil => simp [firstSeenSpec]
    | cons x xs =>
      simp only [List.length_cons, Nat.succ_le_succ_iff] at hlen
      by_cases hfx : (canonical_key x != k) = true
      · rw [List.filter_cons, if_pos hfx]
        simp only [firstSeenSpec]
        rw [List.filter_cons, if_pos hfx]
        refine congrArg (List.cons x) ?_
        rw [ih _ (le_trans (List.length_filter_le _ _) hlen)]
        refine congrArg firstSeenSpec ?_
        rw [List.filter_filter, List.filter_filter]
        exact List.filter_congr (fun a _ => Bool.and_comm _ _)
      · have hxk : canonical_key x = k := by
          rcases Bool.eq_false_or_eq_true (canonical_key x != k) with hb | hb
          · exact absurd hb hfx
          · simpa using hb
        rw [List.filter_cons, if_neg hfx]
        simp only [firstSeenSpec]
        rw [List.filter_cons, if_neg hfx]
        rw [ih _ (le_trans (List.length_filter_le _ _) hlen)]
        refine congrArg firstSeenSpec ?_
        rw [List.filter_filter]
        refine List.filter_congr (fun a _ => ?_)
        rw [hxk]
        exact Bool.and_self _

/-- `main`'s dedup loop equals the first-seen description. -/
theorem dedupe_eq_firstSeen_aux :
    ∀ (n : Nat) (es : List Entry), es.length ≤ n → dedupe es = firstSeenSpec es := by
  intro n
  induction n with
  | zero =>
    intro es hlen
    have h0 : es = [] := List.eq_nil_of_length_eq_zero (Nat.le_zero.mp hlen)
    subst h0
    simp [dedupe, dedupeAux, firstSeenSpec]
  | succ m ih =>
    intro es hlen
    cases es with
    | nil => simp [dedupe, dedupeAux, firstSeenSpec]
    | cons e rest =>
      simp only [List.length_cons, Nat.succ_le_succ_iff] at hlen
      show dedupeAux (e :: rest) [] = firstSeenSpec (e :: rest)
      simp only [dedupeAux]
      rw [if_neg (List.not_mem_nil _)]
      rw [dedupeAux_cons_seen rest [] (canonical_key e)]
      simp only [firstSeenSpec]
      refine congrArg (List.cons e) ?_
      have hd : dedupeAux rest [] = firstSeenSpec rest := ih rest hlen
      rw [hd]
      exact filter_firstSeenSpec (canonical_key e) rest.length rest (le_refl _)

/-- Claim C6: deduplication retains exactly the first-seen entry of each
canonical-key equivalence class, in input order (it equals the spec-side
first-seen description); in particular over `[A, B, A2]` with
`key A2 = key A ≠ key B` the output is `[A, B]`. -/
theorem dedupe_first_seen :
    (∀ es : List Entry, dedupe es = firstSeenSpec es) ∧
    (∀ A B A2 : Entry, canonical_key A2 = canonical_key A →
      canonical_key B ≠ canonical_key A → dedupe [A, B, A2] = [A, B]) := by
  constructor
  · intro es
    exact dedupe_eq_firstSeen_aux es.length es (le_refl _)
  · intro A B A2 h1 h2
    show dedupeAux [A, B, A2] [] = [A, B]
    simp only [dedupeAux]
    rw [if_neg (List.not_mem_nil _)]
    rw [if_neg (show canonical_key B ∉ [canonical_key A] by simp [h2])]
    rw [if_pos (show canonical_key A2 ∈ [canonical_key B, canonical_key A] by simp [h1])]

/-- Instance of claim C6: `[A, B, A2]` with `A2` a whitespace/case variant
of `A` on the same host dedupes to `[A, B]`. -/
theorem dedupe_first_seen_instance :
    dedupe [{ name := some ("BBC  One"), url := ("http://Host/x") },
            { name := some ("CNN"), url := ("http://cnn") },
            { name := some ("bbc one"), url := ("http://host/y") }] =
      [{ name := some ("BBC  One"), url := ("http://Host/x") },
       { name := some ("CNN"), url := ("http://cnn") }] :=
  dedupe_first_seen.2 _ _ _ (by decide) (by decide)

/-- A cancellable per-item loop processes exactly the prefix of items
checked while the flag was unset — it equals the pure stage on that prefix,
the flag was unset at every processed item's check, and (unless the input
was exhausted) it was set at the step where the loop broke. -/
theorem classifyLoop_prefix (cancel : Nat → Bool) (cl : Entry → Bool × Entry) :
    ∀ (items : List Entry) (s : Nat),
      ∃ k, k ≤ items.length ∧ (∀ j, j < k → cancel (s + j) = false) ∧
        (k < items.length → cancel (s + k) = true) ∧
        classifyLoop cancel cl s items =
          ((classifyStage cl (items.take k)).1, (classifyStage cl (items.take k)).2, s + k) := by
  intro items
  induction items with
  | nil =>
    intro s
    refine ⟨0, le_refl _, ?_, ?_, ?_⟩
    · intro j hj; omega
    · intro h; simp at h
    · simp [classifyLoop, classifyStage]
  | cons e rest ih =>
    intro s
    by_cases hc : cancel s = true
    · refine ⟨0, Nat.zero_le _, ?_, ?_, ?_⟩
      · intro j hj; omega
      · intro _; simpa using hc
      · simp [classifyLoop, hc, classifyStage]
    · have hc0 : cancel s = false := by
        cases hx : cancel s with
        | false => rfl
        | true => exact absurd hx hc
      obtain ⟨k, hk1, hk2, hk3, hk4⟩ := ih (s + 1)
      refine ⟨k + 1, by simpa using Nat.succ_le_succ hk1, ?_, ?_, ?_⟩
      · intro j hj
        cases j with
        | zero => simpa using hc0
        | succ j0 =>
          have h0 := hk2 j0 (Nat.lt_of_succ_lt_succ hj)
          have heq : s + (j0 + 1) = s + 1 + j0 := by omega
          rw [heq]; exact h0
      · intro hlt
        have h0 := hk3 (by simpa using Nat.lt_of_succ_lt_succ hlt)
        have heq : s + (k + 1) = s + 1 + k := by omega
        rw [heq]; exact h0
      · simp only [classifyLoop]
        rw [if_neg hc]
        rw [hk4]
        simp only [List.take_succ_cons, classifyStage]
        have heq : s + 1 + k = s + (k + 1) := by omega
        by_cases hr : (cl e).1 = true
        · rw [if_pos hr, if_pos hr, heq]
        · rw [if_neg hr, if_neg hr, heq]

/-- Claim C9: under any cancellation schedule, the FILTER loop runs the
pure filter stage on the prefix of entries checked while the flag was
unset (processing no later entry), the VALIDATE loop likewise runs the pure
validation stage on a flag-unset prefix of the kept entries, and the later
stages — DEDUPE and the EXPORT pair — still run over those partial
results. -/
theorem pipeline_cancellation (cancel : Nat → Bool) (probe : String → ProbeOutcome)
    (langs countries cats : List String) (entries : List Entry) :
    ∃ k1 k2,
      k1 ≤ entries.length ∧
      (∀ j, j < k1 → cancel j = false) ∧
      (k1 < entries.length → cancel k1 = true) ∧
      classifyLoop cancel (filterClassifier langs countries cats) 0 entries =
        ((filterStage langs countries cats (entries.take k1)).1,
          (filterStage langs countries cats (entries.take k1)).2, k1) ∧
      k2 ≤ (filterStage langs countries cats (entries.take k1)).1.length ∧
      (∀ j, j < k2 → cancel (k1 + j) = false) ∧
      (k2 < (filterStage langs countries cats (entries.take k1)).1.length →
        cancel (k1 + k2) = true) ∧
      classifyLoop cancel (validateClassifier probe) k1
          (filterStage langs countries cats (entries.take k1)).1 =
        ((validateStage probe
            ((filterStage langs countries cats (entries.take k1)).1.take k2)).1,
          (validateStage probe
            ((filterStage langs countries cats (entries.take k1)).1.take k2)).2, k1 + k2) ∧
      pipeline cancel probe langs countries cats entries =
        (dedupe (validateStage probe
            ((filterStage langs countries cats (entries.take k1)).1.take k2)).1,
          (filterStage langs countries cats (entries.take k1)).2 ++
            (validateStage probe
              ((filterStage langs countries cats (entries.take k1)).1.take k2)).2) := by
  obtain ⟨k1, h11, h12, h13, h14⟩ :=
    classifyLoop_prefix cancel (filterClassifier langs countries cats) entries 0
  have h12' : ∀ j, j < k1 → cancel j = false := by
    intro j hj
    have := h12 j hj
    simpa using this
  have h13' : k1 < entries.length → cancel k1 = true := by
    intro h
    have := h13 h
    simpa using this
  have h14' : classifyLoop cancel (filterClassifier langs countries cats) 0 entries =
      ((filterStage langs countries cats (entries.take k1)).1,
        (filterStage langs countries cats (entries.take k1)).2, k1) := by
    rw [h14]
    simp [filterStage]
  obtain ⟨k2, h21, h22, h23, h24⟩ :=
    classifyLoop_prefix cancel (validateClassifier probe)
      (filterStage langs countries cats (entries.take k1)).1 k1
  have h24' : classifyLoop cancel (validateClassifier probe) k1
      (filterStage langs countries cats (entries.take k1)).1 =
      ((validateStage probe
          ((filterStage langs countries cats (entries.take k1)).1.take k2)).1,
        (validateStage probe
          ((filterStage langs countries cats (entries.take k1)).1.take k2)).2, k1 + k2) := by
    rw [h24]
    simp [validateStage]
  refine ⟨k1, k2, h11, h12', h13', h14', h21, h22, h23, h24', ?_⟩
  show (let f := classifyLoop cancel (filterClassifier langs countries cats) 0 entries
        let v := classifyLoop cancel (validateClassifier probe) f.2.2 f.1
        (dedupe v.1, f.2.1 ++ v.2.1)) = _
  rw [h14']
  simp only []
  rw [h24']

/-- Instance of claim C9: a concrete sticky schedule (set from step 2 on)
over three entries. -/
theorem pipeline_cancellation_instance :
    ∃ k1 k2,
      k1 ≤ ([{ name := some ("A"), url := ("http://a") },
             { name := some ("B"), url := ("http://b") },
             { name := some ("C"), url := ("http://c") }] : List Entry).length ∧
      (∀ j, j < k1 → (fun s => decide (2 ≤ s)) j = false) ∧
      (k1 < ([{ name := some ("A"), url := ("http://a") },
              { name := some ("B"), url := ("http://b") },
              { name := some ("C"), url := ("http://c") }] : List Entry).length →
        (fun s => decide (2 ≤ s)) k1 = true) ∧
      classifyLoop (fun s => decide (2 ≤ s)) (filterClassifier [] [] []) 0
          [{ name := some ("A"), url := ("http://a") },
           { name := some ("B"), url := ("http://b") },
           { name := some ("C"), url := ("http://c") }] =
        ((filterStage [] [] []
            (([{ name := some ("A"), url := ("http://a") },
               { name := some ("B"), url := ("http://b") },
               { name := some ("C"), url := ("http://c") }] : List Entry).take k1)).1,
          (filterStage [] [] []
            (([{ name := some ("A"), url := ("http://a") },
               { name := some ("B"), url := ("http://b") },
               { name := some ("C"), url := ("http://c") }] : List Entry).take k1)).2, k1) ∧
      k2 ≤ (filterStage [] [] []
          (([{ name := some ("A"), url := ("http://a") },
             { name := some ("B"), url := ("http://b") },
             { name := some ("C"), url := ("http://c") }] : List Entry).take k1)).1.length ∧
      (∀ j, j < k2 → (fun s => decide (2 ≤ s)) (k1 + j) = false) ∧
      (k2 < (filterStage [] [] []
          (([{ name := some ("A"), url := ("http://a") },
             { name := some ("B"), url := ("http://b") },
             { name := some ("C"), url := ("http://c") }] : List Entry).take k1)).1.length →
        (fun s => decide (2 ≤ s)) (k1 + k2) = true) ∧
      classifyLoop (fun s => decide (2 ≤ s))
          (validateClassifier (fun _ => ProbeOutcome.response 200 [2048])) k1
          (filterStage [] [] []
            (([{ name := some ("A"), url := ("http://a") },
               { name := some ("B"), url := ("http://b") },
               { name := some ("C"), url := ("http://c") }] : List Entry).take k1)).1 =
        ((validateStage (fun _ => ProbeOutcome.response 200 [2048])
            ((filterStage [] [] []
              (([{ name := some ("A"), url := ("http://a") },
                 { name := some ("B"), url := ("http://b") },
                 { name := some ("C"), url := ("http://c") }] : List Entry).take k1)).1.take k2)).1,
          (validateStage (fun _ => ProbeOutcome.response 200 [2048])
            ((filterStage [] [] []
              (([{ name := some ("A"), url := ("http://a") },
                 { name := some ("B"), url := ("http://b") },
                 { name := some ("C"), url := ("http://c") }] : List Entry).take k1)).1.take k2)).2,
          k1 + k2) ∧
      pipeline (fun s => decide (2 ≤ s)) (fun _ => ProbeOutcome.response 200 [2048]) [] [] []
          [{ name := some ("A"), url := ("http://a") },
           { name := some ("B"), url := ("http://b") },
           { name := some ("C"), url := ("http://c") }] =
        (dedupe (validateStage (fun _ => ProbeOutcome.response 200 [2048])
            ((filterStage [] [] []
              (([{ name := some ("A"), url := ("http://a") },
                 { name := some ("B"), url := ("http://b") },
                 { name := some ("C"), url := ("http://c") }] : List Entry).take k1)).1.take k2)).1,
          (filterStage [] [] []
            (([{ name := some ("A"), url := ("http://a") },
               { name := some ("B"), url := ("http://b") },
               { name := some ("C"), url := ("http://c") }] : List Entry).take k1)).2 ++
            (validateStage (fun _ => ProbeOutcome.response 200 [2048])
              ((filterStage [] [] []
                (([{ name := some ("A"), url := ("http://a") },
                   { name := some ("B"), url := ("http://b") },
                   { name := some ("C"), url := ("http://c") }] : List Entry).take k1)).1.take
                k2)).2) :=
  pipeline_cancellation (fun s => decide (2 ≤ s)) (fun _ => ProbeOutcome.response 200 [2048])
    [] [] []
    [{ name := some ("A"), url := ("http://a") },
     { name := some ("B"), url := ("http://b") },
     { name := some ("C"), url := ("http://c") }]

/-- `validar_url` succeeds exactly on a non-raising GET with status
exactly 200. -/
theorem validar_url_true_iff (get : String → Option Nat) (url : String) :
    validar_url get url = true ↔ get url = some 200 := by
  unfold validar_url
  cases h : get url with
  | none => simp
  | some s => simp

/-- Membership in the validation log: every attempt comes from a stripped
`#EXTINF:` line that still has a next line (that exact next line, stripped,
is the URL), and its result is `validar_url` of that URL; conversely every
such adjacent pair is attempted. -/
theorem procesarLog_mem (get : String → Option Nat) :
    ∀ (lines : List String) (info url : String) (b : Bool),
      (info, url, b) ∈ procesarLog get lines ↔
        (∃ pre x y post, lines = pre ++ x :: y :: post ∧
          pyStartsWith (pyStrip x) ("#EXTINF:") = true ∧
          info = pyStrip x ∧ url = pyStrip y) ∧
        b = validar_url get url := by
  intro lines
  induction lines with
  | nil =>
    intro info url b
    constructor
    · intro h; simp [procesarLog] at h
    · rintro ⟨⟨pre, x, y, post, hdec, _, _, _⟩, _⟩
      exact absurd hdec (by simp)
  | cons l rest ih =>
    intro info url b
    by_cases hl : pyStartsWith (pyStrip l) ("#EXTINF:") = true
    · cases rest with
      | nil =>
        constructor
        · intro h
          simp only [procesarLog, if_pos hl] at h
          simp at h
        · rintro ⟨⟨pre, x, y, post, hdec, hx, hinfo, hurl⟩, hb⟩
          exfalso
          have hlen := congrArg List.length hdec
          simp [List.length_append] at hlen
          omega
      | cons u rest2 =>
        constructor
        · intro h
          simp only [procesarLog, if_pos hl] at h
          rcases List.mem_cons.mp h with heq | hmem
          · have h1 : info = pyStrip l := congrArg Prod.fst heq
            have h2 : url = pyStrip u := congrArg Prod.fst (congrArg Prod.snd heq)
            have h3 : b = validar_url get (pyStrip u) :=
              congrArg Prod.snd (congrArg Prod.snd heq)
            refine ⟨⟨[], l, u, rest2, rfl, hl, h1, h2⟩, ?_⟩
            rw [h3, h2]
          · obtain ⟨⟨pre, x, y, post, hdec, hx, hinfo, hurl⟩, hb⟩ := (ih info url b).mp hmem
            exact ⟨⟨l :: pre, x, y, post, by rw [List.cons_append, hdec], hx, hinfo, hurl⟩, hb⟩
        · rintro ⟨⟨pre, x, y, post, hdec, hx, hinfo, hurl⟩, hb⟩
          simp only [procesarLog, if_pos hl]
          cases pre with
          | nil =>
            simp only [List.nil_append, List.cons.injEq] at hdec
            obtain ⟨hdx, hdy, hdp⟩ := hdec
            have hmain : (info, url, b) = (pyStrip l, pyStrip u, validar_url get (pyStrip u)) := by
              rw [hinfo, hb, hurl, ← hdx, ← hdy]
            rw [hmain]
            exact List.mem_cons_self _ _
          | cons p pre2 =>
            simp only [List.cons_append, List.cons.injEq] at hdec
            obtain ⟨hdx, hdrest⟩ := hdec
            apply List.mem_cons_of_mem
            exact (ih info url b).mpr ⟨⟨pre2, x, y, post, hdrest, hx, hinfo, hurl⟩, hb⟩
    · constructor
      · intro h
        simp only [procesarLog, if_neg hl] at h
        obtain ⟨⟨pre, x, y, post, hdec, hx, hinfo, hurl⟩, hb⟩ := (ih info url b).mp h
        exact ⟨⟨l :: pre, x, y, post, by rw [List.cons_append, hdec], hx, hinfo, hurl⟩, hb⟩
      · rintro ⟨⟨pre, x, y, post, hdec, hx, hinfo, hurl⟩, hb⟩
        simp only [procesarLog, if_neg hl]
        cases pre with
        | nil =>
          exfalso
          simp only [List.nil_append, List.cons.injEq] at hdec
          exact hl (by rw [hdec.1]; exact hx)
        | cons p pre2 =>
          simp only [List.cons_append, List.cons.injEq] at hdec
          exact (ih info url b).mpr ⟨⟨pre2, x, y, post, hdec.2, hx, hinfo, hurl⟩, hb⟩

/-- Claim C10: in the standalone validator, a channel's validation is
attempted iff its stripped `#EXTINF:` line has at least one following line
— that exact next line (stripped), even if empty or comment-prefixed, is
the URL, so a final `#EXTINF:` line yields no attempt and no record — and
the channel is written to the combined output iff additionally the GET of
that URL returns status exactly 200 without raising (any other status or
an exception fails the channel). -/
theorem validador_combo_characterization (get : String → Option Nat) (lines : List String)
    (info url : String) :
    (∀ b, (info, url, b) ∈ procesarLog get lines ↔
      (∃ pre x y post, lines = pre ++ x :: y :: post ∧
        pyStartsWith (pyStrip x) ("#EXTINF:") = true ∧
        info = pyStrip x ∧ url = pyStrip y) ∧
      b = validar_url get url) ∧
    ((info, url) ∈ lista_combo get lines ↔
      (∃ pre x y post, lines = pre ++ x :: y :: post ∧
        pyStartsWith (pyStrip x) ("#EXTINF:") = true ∧
        info = pyStrip x ∧ url = pyStrip y) ∧
      get url = some 200) := by
  refine ⟨fun b => procesarLog_mem get lines info url b, ?_⟩
  constructor
  · intro h
    rw [lista_combo, List.mem_filterMap] at h
    obtain ⟨r, hr, hfr⟩ := h
    rcases r with ⟨i, u, b⟩
    cases b with
    | false => simp at hfr
    | true =>
      simp only [if_pos rfl] at hfr
      have h1 : i = info := congrArg Prod.fst (Option.some.inj hfr)
      have h2 : u = url := congrArg Prod.snd (Option.some.inj hfr)
      rw [← h1, ← h2]
      obtain ⟨hdec, hbv⟩ := (procesarLog_mem get lines i u true).mp hr
      exact ⟨hdec, (validar_url_true_iff get u).mp hbv.symm⟩
  · rintro ⟨hdec, h200⟩
    rw [lista_combo, List.mem_filterMap]
    refine ⟨(info, url, true), ?_, by simp⟩
    exact (procesarLog_mem get lines info url true).mpr
      ⟨hdec, ((validar_url_true_iff get url).mpr h200).symm⟩

/-- Instance of claim C10: in a four-line file the first channel (GET
returns 200) is written and the second (GET raises) is not; a final
`#EXTINF:` line would contribute nothing. -/
theorem validador_combo_characterization_instance :
    (("#EXTINF:-1,X"), ("http://ok")) ∈
      lista_combo (fun u => if u = ("http://ok") then some 200 else none)
        [("#EXTINF:-1,X"), ("http://ok"), ("#EXTINF:-1,Y"), ("http://dead")] :=
  (validador_combo_characterization (fun u => if u = ("http://ok") then some 200 else none)
      [("#EXTINF:-1,X"), ("http://ok"), ("#EXTINF:-1,Y"), ("http://dead")]
      ("#EXTINF:-1,X") ("http://ok")).2.mpr
    ⟨⟨[], ("#EXTINF:-1,X"), ("http://ok"), [("#EXTINF:-1,Y"), ("http://dead")], rfl,
      by decide, by decide, by decide⟩, by decide⟩

/-- A `dropWhile` that loses no length drops nothing. -/
theorem dropWhile_eq_self_of_length {α : Type} (p : α → Bool) :
    ∀ l : List α, (l.dropWhile p).length = l.length → l.dropWhile p = l := by
  intro l
  cases l with
  | nil => intro h; rfl
  | cons c rest =>
    intro h
    by_cases hp : p c = true
    · exfalso
      rw [List.dropWhile_cons_of_pos hp] at h
      have := (List.dropWhile_sublist (l := rest) p).length_le
      simp [List.length_cons] at h
      omega
    · rw [List.dropWhile_cons_of_neg hp]

/-- Skipping a skippable line does not change the URL scan's result. -/
theorem findUrl_cons_skip (l : String) (rest : List String) (h : skippableLine l = true) :
    findUrl (l :: rest) = findUrl rest := by
  simp [findUrl, List.dropWhile_cons, h]

/-- A non-skippable line is taken as the URL, and scanning resumes after
it. -/
theorem findUrl_cons_take (l : String) (rest : List String) (h : ¬ skippableLine l = true) :
    findUrl (l :: rest) = (pyStrip l, rest) := by
  simp [findUrl, List.dropWhile_cons, h]

/-- The pending-metadata mode of the parser is exactly "find the URL with
`findUrl`, emit the entry, resume". -/
theorem parseAux_pending (meta : String) :
    ∀ ls : List String, parseAux (some meta) ls =
      mkEntry meta (findUrl ls).1 :: parseAux none (findUrl ls).2 := by
  intro ls
  induction ls with
  | nil => rfl
  | cons l rest ih =>
    by_cases hs : skippableLine l = true
    · simp only [parseAux, if_pos hs]
      rw [ih, findUrl_cons_skip l rest hs]
    · simp only [parseAux, if_neg hs]
      rw [findUrl_cons_take l rest hs]

/-- Claim C2 (amended: a metadata line lying between a previous metadata
line and that entry's URL is skipped by the URL scan — it starts with `#` —
and yields no entry of its own; the counterexample below shows the claim
fails without this restriction): a playlist with no metadata line yields no
entries; at the first metadata line one entry is produced whose URL is
`findUrl` of the following lines, and parsing resumes after the consumed
URL; and `findUrl` returns the first following non-empty non-`#` line
(stripped) — skipping only empty or `#`-prefixed lines — or the empty
string (consuming everything) when no such line exists. -/
theorem parse_m3u_block_characterization :
    (∀ ls : List String, (∀ l ∈ ls, pyStartsWith (pyStrip l) ("#EXTINF") = false) →
      parse_m3u ls = []) ∧
    (∀ (pre : List String) (m : String) (rest : List String),
      (∀ l ∈ pre, pyStartsWith (pyStrip l) ("#EXTINF") = false) →
      pyStartsWith (pyStrip m) ("#EXTINF") = true →
      parse_m3u (pre ++ m :: rest) =
        mkEntry (pyStrip m) (findUrl rest).1 :: parse_m3u (findUrl rest).2) ∧
    (∀ ls : List String, ∃ sk rem, ls = sk ++ rem ∧
      (∀ l ∈ sk, skippableLine l = true) ∧
      ((rem = [] ∧ findUrl ls = (("") , [])) ∨
        (∃ u rest2, rem = u :: rest2 ∧ skippableLine u = false ∧
          findUrl ls = (pyStrip u, rest2)))) := by
  refine ⟨?_, ?_, ?_⟩
  · intro ls
    induction ls with
    | nil => intro h; rfl
    | cons l rest ih =>
      intro h
      have hl := h l (List.mem_cons_self _ _)
      show parseAux none (l :: rest) = []
      simp only [parseAux, hl, Bool.false_eq_true, if_false]
      exact ih (fun x hx => h x (List.mem_cons_of_mem _ hx))
  · intro pre
    induction pre with
    | nil =>
      intro m rest hpre hm
      show parseAux none (m :: rest) = _
      simp only [parseAux, if_pos hm]
      exact parseAux_pending (pyStrip m) rest
    | cons p pre2 ih =>
      intro m rest hpre hm
      have hp := hpre p (List.mem_cons_self _ _)
      show parseAux none (p :: (pre2 ++ m :: rest)) = _
      simp only [parseAux, hp, Bool.false_eq_true, if_false]
      exact ih m rest (fun x hx => hpre x (List.mem_cons_of_mem _ hx)) hm
  · intro ls
    induction ls with
    | nil =>
      exact ⟨[], [], rfl, fun l hl => absurd hl (List.not_mem_nil _), Or.inl ⟨rfl, rfl⟩⟩
    | cons l rest ih =>
      by_cases hs : skippableLine l = true
      · obtain ⟨sk, rem, hdec, hsk, hrest⟩ := ih
        refine ⟨l :: sk, rem, by rw [List.cons_append, hdec], ?_, ?_⟩
        · intro x hx
          rcases List.mem_cons.mp hx with h | h
          · rw [h]; exact hs
          · exact hsk x h
        · rw [findUrl_cons_skip l rest hs]
          exact hrest
      · have hs0 : skippableLine l = false := by
          cases hx : skippableLine l with
          | false => rfl
          | true => exact absurd hx hs
        exact ⟨[], l :: rest, rfl, fun x hx => absurd hx (List.not_mem_nil _),
          Or.inr ⟨l, rest, rfl, hs0, findUrl_cons_take l rest hs⟩⟩

/-- Instance of claim C2 (amended form): a header line, one metadata line,
a blank line, a comment, then the URL. -/
theorem parse_m3u_block_characterization_instance :
    parse_m3u [("#EXTM3U"), ("#EXTINF:-1,A"), (""), ("# note"), ("http://x")] =
      [mkEntry ("#EXTINF:-1,A") ("http://x")] := by
  have h := parse_m3u_block_characterization.2.1 [("#EXTM3U")] ("#EXTINF:-1,A")
    [(""), ("# note"), ("http://x")] (by decide) (by decide)
  rw [show ([("#EXTM3U")] ++ ("#EXTINF:-1,A") :: [(""), ("# note"), ("http://x")]) =
    [("#EXTM3U"), ("#EXTINF:-1,A"), (""), ("# note"), ("http://x")] from rfl] at h
  rw [h]
  decide

/-- Counterexample to claim C2 as stated: two consecutive metadata lines
followed by one URL yield a single entry — the second `#EXTINF` line is
consumed by the first entry's URL scan (it is `#`-prefixed) and the scan
then jumps past the URL, so no second entry is produced, where the claim
demands exactly one entry per metadata line (here two). -/
theorem parse_m3u_shared_url_counterexample :
    (parse_m3u [("#EXTINF:-1,A"), ("#EXTINF:-1,B"), ("http://x")]).length = 1 ∧
    (([("#EXTINF:-1,A"), ("#EXTINF:-1,B"), ("http://x")] : List String).filter
      (fun l => pyStartsWith (pyStrip l) ("#EXTINF"))).length = 2 ∧
    (parse_m3u [("#EXTINF:-1,A"), ("#EXTINF:-1,B"), ("http://x")]).map (fun e => e.url) =
      [("http://x")] := by
  refine ⟨by decide, by decide, by decide⟩

/-- First-comma scan on a decomposition at a comma-free prefix. -/
theorem goComma_eq_of_decomp (pre post : List Char) (h : (',') ∉ pre) :
    goComma (pre ++ (',') :: post) = (if post = [] then none else some post) := by
  induction pre with
  | nil => simp [goComma]
  | cons c pre2 ih =>
    have hc : ¬ c = ',' := fun hx => h (by rw [hx]; exact List.mem_cons_self _ _)
    rw [List.cons_append]
    simp only [goComma, if_neg hc]
    exact ih (fun hx => h (List.mem_cons_of_mem _ hx))

/-- A successful first-comma scan exhibits a decomposition with a non-empty
suffix. -/
theorem goComma_some_decomp :
    ∀ (l post : List Char), goComma l = some post →
      ∃ pre, l = pre ++ (',') :: post ∧ post ≠ [] := by
  intro l
  induction l with
  | nil => intro post h; simp [goComma] at h
  | cons c rest ih =>
    intro post h
    by_cases hc : c = ','
    · subst hc
      simp only [goComma, if_pos rfl] at h
      by_cases hr : rest = []
      · subst hr; simp at h
      · rw [if_neg hr] at h
        have hrp := Option.some.inj h
        exact ⟨[], by rw [← hrp]; rfl, by rw [← hrp]; exact hr⟩
    · simp only [goComma, if_neg hc] at h
      obtain ⟨pre, hdec, hpost⟩ := ih post h
      exact ⟨c :: pre, by rw [List.cons_append, hdec], hpost⟩

/-- When every comma of the line is final, the first-comma scan fails. -/
theorem goComma_none_of :
    ∀ l : List Char, (∀ pre post, l = pre ++ (',') :: post → post = []) →
      goComma l = none := by
  intro l
  induction l with
  | nil => intro h; rfl
  | cons c rest ih =>
    intro h
    by_cases hc : c = ','
    · subst hc
      have hr : rest = [] := h [] rest rfl
      subst hr
      rfl
    · simp only [goComma, if_neg hc]
      exact ih (fun pre post hdec => h (c :: pre) post (by rw [List.cons_append, hdec]))

/-- A non-dropped element survives `dropWhile`. -/
theorem mem_dropWhile_of_mem {p : Char → Bool} :
    ∀ (l : List Char) (c : Char), c ∈ l → p c = false → c ∈ l.dropWhile p := by
  intro l
  induction l with
  | nil => intro c h; intro _; simp at h
  | cons a rest ih =>
    intro c hc hpc
    by_cases ha : p a = true
    · rw [List.dropWhile_cons_of_pos ha]
      rcases List.mem_cons.mp hc with h | h
      · exfalso
        rw [h] at hpc
        rw [hpc] at ha
        cases ha
      · exact ih c h hpc
    · rw [List.dropWhile_cons_of_neg ha]
      exact hc

/-- Stripping a list containing a non-whitespace character cannot give the
empty list. -/
theorem pyStripList_ne_nil (l : List Char) (c : Char) (hc : c ∈ l) (hw : pyWs c = false) :
    pyStripList l ≠ [] := by
  intro h0
  unfold pyStripList at h0
  have h1 : c ∈ l.dropWhile pyWs := mem_dropWhile_of_mem l c hc hw
  have h2 : c ∈ (l.dropWhile pyWs).reverse := List.mem_reverse.mpr h1
  have h3 : c ∈ ((l.dropWhile pyWs).reverse).dropWhile pyWs := mem_dropWhile_of_mem _ c h2 hw
  rw [List.reverse_eq_nil_iff.mp h0] at h3
  simp at h3

/-- The last character of a non-empty stripped list is not whitespace. -/
theorem stripped_last_not_ws (l : List Char) (hs : pyStripList l = l) (hne : l ≠ []) :
    ∃ c, l.reverse.head? = some c ∧ pyWs c = false := by
  have hlen1 : (l.dropWhile pyWs).length = l.length := by
    have ha : (pyStripList l).length = l.length := by rw [hs]
    have hb : (pyStripList l).length ≤ (l.dropWhile pyWs).length := by
      unfold pyStripList
      rw [List.length_reverse]
      calc ((l.dropWhile pyWs).reverse.dropWhile pyWs).length
          ≤ (l.dropWhile pyWs).reverse.length := (List.dropWhile_sublist _).length_le
        _ = (l.dropWhile pyWs).length := List.length_reverse _
    have hcc := (List.dropWhile_sublist (l := l) pyWs).length_le
    omega
  have hdw : l.dropWhile pyWs = l := dropWhile_eq_self_of_length pyWs l hlen1
  have hrev : l.reverse.dropWhile pyWs = l.reverse := by
    have hx : (l.reverse.dropWhile pyWs).reverse = l := by
      unfold pyStripList at hs
      rw [hdw] at hs
      exact hs
    calc l.reverse.dropWhile pyWs
        = ((l.reverse.dropWhile pyWs).reverse).reverse := (List.reverse_reverse _).symm
      _ = l.reverse := by rw [hx]
  cases hrv : l.reverse with
  | nil => exact absurd (by simpa using congrArg List.reverse hrv) hne
  | cons c t =>
    refine ⟨c, rfl, ?_⟩
    rw [hrv] at hrev
    by_cases hw : pyWs c = true
    · exfalso
      rw [List.dropWhile_cons_of_pos hw] at hrev
      have hle := (List.dropWhile_sublist (l := t) pyWs).length_le
      have hlc := congrArg List.length hrev
      simp [List.length_cons] at hlc
      omega
    · cases hx : pyWs c with
      | false => rfl
      | true => exact absurd hx hw

/-- The last character of `pre ++ x :: post` lies in a non-empty `post`. -/
theorem last_mem_post (pre post : List Char) (x c : Char) (hpost : post ≠ [])
    (hhead : (pre ++ x :: post).reverse.head? = some c) : c ∈ post := by
  cases hrv : post.reverse with
  | nil => exact absurd (by simpa using congrArg List.reverse hrv) hpost
  | cons d ds =>
    have heq : (pre ++ x :: post).reverse.head? = some d := by
      rw [List.reverse_append, List.reverse_cons, hrv]
      simp
    rw [heq] at hhead
    have hcd : d = c := Option.some.inj hhead
    have hdp : d ∈ post := List.mem_reverse.mp (by rw [hrv]; exact List.mem_cons_self _ _)
    exact hcd ▸ hdp

/-- For a stripped non-empty line, the text after any comma that reaches
the end of the line strips to a non-empty string. -/
theorem pyStrip_post_ne (line : String) (hs : pyStrip line = line) (hne : line ≠ (""))
    (pre post : List Char) (hdec : line.data = pre ++ (',') :: post) (hpost : post ≠ []) :
    pyStrip (String.mk post) ≠ ("") := by
  have hdata : pyStripList line.data = line.data := congrArg String.data hs
  have hnil : line.data ≠ [] := by
    intro h0
    exact hne (String.ext h0)
  obtain ⟨c, hhead, hw⟩ := stripped_last_not_ws line.data hdata hnil
  rw [hdec] at hhead
  have hcpost : c ∈ post := last_mem_post pre post (',') c hpost hhead
  intro hcon
  exact pyStripList_ne_nil post c hcpost hw (congrArg String.data hcon)

/-- The extractor's name field is the comma-rule title. -/
theorem extract_metadata_name (line : String) :
    (extract_metadata line).name = nameAfterComma line := rfl

/-- A non-empty title found by the comma rule is kept as the name. -/
theorem mkEntry_name_of_some (meta url n : String)
    (h : nameAfterComma meta = some n) (hn : n ≠ ("")) :
    (mkEntry meta url).name = some n := by
  simp only [mkEntry, extract_metadata_name, h]
  rw [if_neg hn]

/-- With no comma title, the name comes from `derive_name_from_meta`. -/
theorem mkEntry_name_of_none (meta url : String) (h : nameAfterComma meta = none) :
    (mkEntry meta url).name = some (derive_name_from_meta meta url) := by
  simp only [mkEntry, extract_metadata_name, h]

/-- With no comma title the fallback is the extension-stripped basename of
the URL path, else the literal `"Unknown"`. -/
theorem derive_of_none (line url : String) (h : nameAfterComma line = none) :
    derive_name_from_meta line url =
      (if pyBasename (pyUrlPath url) = ("") then ("Unknown")
       else if splitextFst (pyBasename (pyUrlPath url)) = ("") then ("Unknown")
       else splitextFst (pyBasename (pyUrlPath url))) := by
  simp only [derive_name_from_meta, h]
  by_cases hb : pyBasename (pyUrlPath url) = ("")
  · simp [hb]
  · simp [hb]

/-- The fallback name is never empty. -/
theorem derive_of_none_ne (line url : String) (h : nameAfterComma line = none) :
    derive_name_from_meta line url ≠ ("") := by
  simp only [derive_name_from_meta, h]
  by_cases h2 : (if pyBasename (pyUrlPath url) = ("") then pyBasename (pyUrlPath url)
      else splitextFst (pyBasename (pyUrlPath url))) = ("")
  · rw [if_pos h2]; decide
  · rw [if_neg h2]; exact h2

/-- Claim C3 (amended: the title is everything after the FIRST comma of the
metadata line — including commas inside quoted attribute values — not the
last top-level comma; the counterexample below refutes the last-comma
reading): for a stripped non-empty metadata line, when the line decomposes
at its first comma with a non-empty suffix, the entry's name is that suffix
stripped; when no comma has anything after it, the comma rule fails again
in the fallback and the name becomes the extension-stripped basename of
the URL path, or the literal `"Unknown"`; and the name is always a present,
non-empty string. -/
theorem extinf_name_fallback (line url : String) (hs : pyStrip line = line)
    (hne : line ≠ ("")) :
    (∀ pre post : List Char, line.data = pre ++ (',') :: post → (',') ∉ pre → post ≠ [] →
      (mkEntry line url).name = some (pyStrip (String.mk post))) ∧
    ((∀ pre post : List Char, line.data = pre ++ (',') :: post → post = []) →
      (mkEntry line url).name = some (derive_name_from_meta line url) ∧
      derive_name_from_meta line url =
        (if pyBasename (pyUrlPath url) = ("") then ("Unknown")
         else if splitextFst (pyBasename (pyUrlPath url)) = ("") then ("Unknown")
         else splitextFst (pyBasename (pyUrlPath url)))) ∧
    (∃ n, (mkEntry line url).name = some n ∧ n ≠ ("")) := by
  refine ⟨?_, ?_, ?_⟩
  · intro pre post hdec hpre hpost
    have hgo : goComma line.data = some post := by
      rw [hdec, goComma_eq_of_decomp pre post hpre, if_neg hpost]
    have hnac : nameAfterComma line = some (pyStrip (String.mk post)) := by
      unfold nameAfterComma
      rw [hgo]
      rfl
    exact mkEntry_name_of_some line url _ hnac (pyStrip_post_ne line hs hne pre post hdec hpost)
  · intro hno
    have hgo : goComma line.data = none := goComma_none_of line.data hno
    have hnac : nameAfterComma line = none := by
      unfold nameAfterComma
      rw [hgo]
      rfl
    exact ⟨mkEntry_name_of_none line url hnac, derive_of_none line url hnac⟩
  · cases hgo : goComma line.data with
    | some post =>
      obtain ⟨pre, hdec, hpost⟩ := goComma_some_decomp line.data post hgo
      have hnac : nameAfterComma line = some (pyStrip (String.mk post)) := by
        unfold nameAfterComma
        rw [hgo]
        rfl
      have hnz := pyStrip_post_ne line hs hne pre post hdec hpost
      exact ⟨pyStrip (String.mk post), mkEntry_name_of_some line url _ hnac hnz, hnz⟩
    | none =>
      have hnac : nameAfterComma line = none := by
        unfold nameAfterComma
        rw [hgo]
        rfl
      exact ⟨derive_name_from_meta line url, mkEntry_name_of_none line url hnac,
        derive_of_none_ne line url hnac⟩

/-- Instance of claim C3: a line with a title keeps it; a line with no
comma falls back to the URL basename without its extension. -/
theorem extinf_name_fallback_instance :
    (mkEntry ("#EXTINF:-1,Channel One") ("http://h/x.m3u")).name = some ("Channel One") ∧
    (mkEntry ("#EXTINF:-1") ("http://h/video.m3u8")).name = some ("video") := by
  constructor
  · have h := (extinf_name_fallback ("#EXTINF:-1,Channel One") ("http://h/x.m3u")
      (by decide) (by decide)).1
    have hd : ("#EXTINF:-1,Channel One").data =
        [('#'), ('E'), ('X'), ('T'), ('I'), ('N'), ('F'), (':'), ('-'), ('1')] ++ (',') ::
          [('C'), ('h'), ('a'), ('n'), ('n'), ('e'), ('l'), (' '), ('O'), ('n'), ('e')] := by
      decide
    have h2 := h _ _ hd (by decide) (by decide)
    rw [h2]
    decide
  · have h := (extinf_name_fallback ("#EXTINF:-1") ("http://h/video.m3u8")
      (by decide) (by decide)).2.1
    have h2 := h (by
      intro pre post hdec
      exfalso
      have hcm : (',') ∈ ("#EXTINF:-1").data := by
        rw [hdec]
        exact List.mem_append_right _ (List.mem_cons_self _ _)
      exact absurd hcm (by decide))
    rw [h2.1]
    decide

/-- Counterexample to claim C3 as stated: on a line with two (top-level)
commas the source takes everything after the FIRST comma, not the last. -/
theorem extinf_name_first_comma_counterexample :
    (mkEntry ("#EXTINF:-1,A,B") ("http://h/x")).name = some ("A,B") ∧
    afterLastComma ("#EXTINF:-1,A,B") = some ("B") ∧
    (("A,B") : String) ≠ ("B") := by
  refine ⟨by decide, by decide, by decide⟩

end M3u
